import Mathlib

/-!
Verification of the BookBot document pipeline: boundary stripping and
whitespace normalization (server/scripts/download_new_books.py, clean_text),
author extraction (server/scripts/generate_svg_covers.py, extract_author),
title derivation (title_to_display_name) and the cover layout split
(create_svg_cover). Text is modelled as List Char; Python semantics
(str.find, slicing, str.strip, the specific regexes with their leftmost
greedy backtracking behaviour) are embedded explicitly.
-/

/-- Characters matched by Python's regex class \s and stripped by str.strip
(ASCII range: space, tab, newline, carriage return, vertical tab, form feed). -/
def isSpaceChar (c : Char) : Bool :=
  c = ' ' || c = '\t' || c = '\n' || c = '\r' || c = '\x0b' || c = '\x0c'

/-- Horizontal whitespace, the regex class [ \t] of the second cleanup pass. -/
def isHT (c : Char) : Bool :=
  c = ' ' || c = '\t'

/-- Python str.find semantics: index of the first occurrence of needle in hay,
as an Option (Python returns -1 when absent; callers convert). -/
def findIdx? (hay needle : List Char) : Option Nat :=
  if needle.isPrefixOf hay then some 0
  else
    match hay with
    | [] => none
    | _ :: t => (findIdx? t needle).map (· + 1)

/-- Python slice s[a:b] (step 1) with the full negative-index clamping rules. -/
def pySlice (s : List Char) (a b : Int) : List Char :=
  let n : Int := s.length
  let a' : Int := if a < 0 then max (n + a) 0 else min a n
  let b' : Int := if b < 0 then max (n + b) 0 else min b n
  (s.drop a'.toNat).take (b' - a').toNat

/-- Python str.strip(): remove leading and trailing whitespace. -/
def pyStrip (s : List Char) : List Char :=
  ((s.dropWhile isSpaceChar).reverse.dropWhile isSpaceChar).reverse

/-- The ordered start-marker candidate list of clean_text. -/
def start_markers : List (List Char) :=
  [("*** START OF THE PROJECT GUTENBERG EBOOK".data),
   ("*** START OF THIS PROJECT GUTENBERG EBOOK".data),
   ("***START OF THE PROJECT GUTENBERG EBOOK".data)]

/-- The ordered end-marker candidate list of clean_text. -/
def end_markers : List (List Char) :=
  [("*** END OF THE PROJECT GUTENBERG EBOOK".data),
   ("*** END OF THIS PROJECT GUTENBERG EBOOK".data),
   ("***END OF THE PROJECT GUTENBERG EBOOK".data)]

/-- The body run after a marker is found at pos: start_pos = text.find('\n', pos)
(a search from index pos, i.e. over text.drop pos); if that is not -1 it is
incremented, otherwise start_pos is left as the -1 returned by find. -/
def lineEndAfter (text : List Char) (pos : Nat) : Int :=
  match findIdx? (text.drop pos) ['\n'] with
  | some k => ((pos : Int) + k) + 1
  | none => -1

/-- The start-position loop of clean_text: the first marker (in list order)
that occurs anywhere determines start_pos and the loop breaks.  No marker
found leaves start_pos = 0. -/
def findStartLoop (text : List Char) : List (List Char) → Int
  | [] => 0
  | m :: ms =>
    match findIdx? text m with
    | some pos => lineEndAfter text pos
    | none => findStartLoop text ms

/-- start_pos computed by clean_text. -/
def findStart (text : List Char) : Int :=
  findStartLoop text start_markers

/-- The end-position loop of clean_text: end_pos = len(text) unless a marker
is found, in which case end_pos is the position of its first occurrence. -/
def findEndLoop (text : List Char) : List (List Char) → Int
  | [] => (text.length : Int)
  | m :: ms =>
    match findIdx? text m with
    | some pos => (pos : Int)
    | none => findEndLoop text ms

/-- end_pos computed by clean_text. -/
def findEnd (text : List Char) : Int :=
  findEndLoop text end_markers

/-! ### The two re.sub cleanup passes of clean_text

Pass (a) is re.sub(r'\n\s*\n\s*\n+', '\n\n', s), pass (b) is
re.sub(r'[ \t]+', ' ', s).  Each matcher below returns the length of the
(leftmost-position, greedy-backtracking) match starting at the head of the
list, mirroring the regex structure element by element; re.sub itself is the
standard scan: replace a match and continue after it, else copy one char. -/

/-- Length of the maximal leading run of '\n' (the greedy tail of \n+). -/
def countLeadNL : List Char → Nat
  | [] => 0
  | c :: rest => if c = '\n' then 1 + countLeadNL rest else 0

/-- Regex element \n+ (greedy) at the head: total consumed length. -/
def nlPlusLen : List Char → Option Nat
  | [] => none
  | c :: rest => if c = '\n' then some (1 + countLeadNL rest) else none

/-- Regex fragment \s*\n+ with greedy backtracking: prefer consuming a
whitespace char into \s* and matching the rest further right. -/
def wsStarNlPlus : List Char → Option Nat
  | [] => none
  | c :: rest =>
    if isSpaceChar c then
      match wsStarNlPlus rest with
      | some n => some (n + 1)
      | none => nlPlusLen (c :: rest)
    else nlPlusLen (c :: rest)

/-- Regex fragment \n\s*\n+ at the head. -/
def nlWsNlPlus : List Char → Option Nat
  | [] => none
  | c :: rest => if c = '\n' then (wsStarNlPlus rest).map (· + 1) else none

/-- Regex fragment \s*(\n\s*\n+) with greedy backtracking. -/
def wsStarNlWsNlPlus : List Char → Option Nat
  | [] => none
  | c :: rest =>
    if isSpaceChar c then
      match wsStarNlWsNlPlus rest with
      | some n => some (n + 1)
      | none => nlWsNlPlus (c :: rest)
    else nlWsNlPlus (c :: rest)

/-- The whole blank-line pattern \n\s*\n\s*\n+ at the head of the list:
length consumed by Python's greedy backtracking match, if it matches here. -/
def matchA : List Char → Option Nat
  | [] => none
  | c :: rest => if c = '\n' then (wsStarNlWsNlPlus rest).map (· + 1) else none

/-- Length of the maximal leading run of [ \t]. -/
def countLeadHT : List Char → Nat
  | [] => 0
  | c :: rest => if isHT c then 1 + countLeadHT rest else 0

/-- The horizontal-whitespace pattern [ \t]+ (greedy) at the head. -/
def matchHT : List Char → Option Nat
  | [] => none
  | c :: rest => if isHT c then some (1 + countLeadHT rest) else none

/-- re.sub's scan: at each position try the matcher; on a match of length n
emit the replacement and continue after the match, otherwise copy one char.
The fuel argument (instantiated with the list length, an upper bound on the
number of steps) only makes the recursion structural; it is never exhausted. -/
def reSubAux (m : List Char → Option Nat) (repl : List Char) :
    Nat → List Char → List Char
  | _, [] => []
  | 0, s => s
  | fuel + 1, c :: rest =>
    match m (c :: rest) with
    | some n => repl ++ reSubAux m repl fuel (rest.drop (n - 1))
    | none => c :: reSubAux m repl fuel rest

/-- re.sub(pattern, repl, s) for the two cleanup patterns. -/
def reSub (m : List Char → Option Nat) (repl : List Char) (s : List Char) :
    List Char :=
  reSubAux m repl s.length s

/-- First cleanup pass: re.sub(r'\n\s*\n\s*\n+', '\n\n', s). -/
def subBlank (s : List Char) : List Char :=
  reSub matchA ['\n', '\n'] s

/-- Second cleanup pass: re.sub(r'[ \t]+', ' ', s). -/
def subHT (s : List Char) : List Char :=
  reSub matchHT [' '] s

/-- The whitespace normalization of clean_text (lines 47-48): blank-line
collapse then horizontal-whitespace collapse. -/
def normalizeWS (s : List Char) : List Char :=
  subHT (subBlank s)

/-- clean_text from download_new_books.py: locate the boundaries, slice,
strip, then the two whitespace-collapsing passes. -/
def clean_text (text : List Char) : List Char :=
  normalizeWS (pyStrip (pySlice text (findStart text) (findEnd text)))

/-! ### Author extraction (generate_svg_covers.py, extract_author)

The three patterns, searched in order over the first 50 lines:
  r'by\s+([A-Z][a-zA-Z\.\s]+)(?:\r|\n)'
  r'(?:written|translated)\s+by\s+([A-Z][a-zA-Z\.\s]+)(?:\r|\n)'
  r'(?:Author|Written|Translated):\s+([A-Z][a-zA-Z\.\s]+)(?:\r|\n)'
Each matcher returns the captured group of the greedy backtracking match
starting at the head of the list. -/

/-- An ASCII capital letter, the class [A-Z]. -/
def isUpperAZ (c : Char) : Bool :=
  'A' ≤ c && c ≤ 'Z'

/-- The capture-group character class [a-zA-Z.\s]. -/
def isNameChar (c : Char) : Bool :=
  ('a' ≤ c && c ≤ 'z') || ('A' ≤ c && c ≤ 'Z') || c = '.' || isSpaceChar c

/-- Regex fragment [a-zA-Z.\s]*(?:\r|\n) with greedy backtracking: the
characters consumed into the class (the tail of the capture), preferring to
extend the class run, falling back to reading one '\r' or '\n' terminator. -/
def nameStarNL : List Char → Option (List Char)
  | [] => none
  | c :: rest =>
    if isNameChar c then
      match nameStarNL rest with
      | some cs => some (c :: cs)
      | none => if c = '\r' || c = '\n' then some [] else none
    else if c = '\r' || c = '\n' then some [] else none

/-- Regex fragment [a-zA-Z.\s]+(?:\r|\n): at least one class character. -/
def namePlusNL : List Char → Option (List Char)
  | [] => none
  | c :: rest => if isNameChar c then (nameStarNL rest).map (c :: ·) else none

/-- The capture group ([A-Z][a-zA-Z\.\s]+) followed by (?:\r|\n). -/
def capGroup : List Char → Option (List Char)
  | [] => none
  | c :: rest => if isUpperAZ c then (namePlusNL rest).map (c :: ·) else none

/-- Regex fragment \s*([A-Z]...) with greedy backtracking over \s*. -/
def wsStarCap : List Char → Option (List Char)
  | [] => none
  | c :: rest =>
    if isSpaceChar c then
      match wsStarCap rest with
      | some r => some r
      | none => capGroup (c :: rest)
    else capGroup (c :: rest)

/-- Regex fragment \s+([A-Z]...): one whitespace char then \s* greedy. -/
def wsPlusCap : List Char → Option (List Char)
  | [] => none
  | c :: rest => if isSpaceChar c then wsStarCap rest else none

/-- Pattern 1, by\s+([A-Z][a-zA-Z\.\s]+)(?:\r|\n), at the head: the capture. -/
def matchP1 : List Char → Option (List Char)
  | 'b' :: 'y' :: rest => wsPlusCap rest
  | _ => none

/-- Regex fragment \s*by\s+(...) with greedy backtracking over the \s*. -/
def wsStarBy : List Char → Option (List Char)
  | [] => none
  | c :: rest =>
    if isSpaceChar c then
      match wsStarBy rest with
      | some r => some r
      | none => matchP1 (c :: rest)
    else matchP1 (c :: rest)

/-- Regex fragment \s+by\s+(...). -/
def wsPlusBy : List Char → Option (List Char)
  | [] => none
  | c :: rest => if isSpaceChar c then wsStarBy rest else none

/-- Pattern 2, (?:written|translated)\s+by\s+(...), at the head. -/
def matchP2 : List Char → Option (List Char)
  | 'w' :: 'r' :: 'i' :: 't' :: 't' :: 'e' :: 'n' :: rest => wsPlusBy rest
  | 't' :: 'r' :: 'a' :: 'n' :: 's' :: 'l' :: 'a' :: 't' :: 'e' :: 'd' :: rest =>
    wsPlusBy rest
  | _ => none

/-- Regex fragment :\s+(...). -/
def colonWsCap : List Char → Option (List Char)
  | ':' :: rest => wsPlusCap rest
  | _ => none

/-- Pattern 3, (?:Author|Written|Translated):\s+(...), at the head. -/
def matchP3 : List Char → Option (List Char)
  | 'A' :: 'u' :: 't' :: 'h' :: 'o' :: 'r' :: rest => colonWsCap rest
  | 'W' :: 'r' :: 'i' :: 't' :: 't' :: 'e' :: 'n' :: rest => colonWsCap rest
  | 'T' :: 'r' :: 'a' :: 'n' :: 's' :: 'l' :: 'a' :: 't' :: 'e' :: 'd' :: rest =>
    colonWsCap rest
  | _ => none

/-- re.search: try the matcher at position 0, 1, 2, ... and return the first
(leftmost) match's capture. -/
def reSearch (m : List Char → Option (List Char)) : List Char → Option (List Char)
  | [] => m []
  | c :: rest =>
    match m (c :: rest) with
    | some r => some r
    | none => reSearch m rest

/-- 50 calls of f.readline() joined: the prefix of the document up to and
including its n-th newline (the whole document if it has fewer lines). -/
def firstLines : Nat → List Char → List Char
  | 0, _ => []
  | _, [] => []
  | n + 1, c :: rest =>
    if c = '\n' then c :: firstLines n rest else c :: firstLines (n + 1) rest

/-- The pattern chain of extract_author over the already-read leading text:
first pattern with a search hit wins; its group(1).strip() is returned,
else the sentinel. -/
def authorFromLines (fl : List Char) : List Char :=
  match reSearch matchP1 fl with
  | some g => pyStrip g
  | none =>
    match reSearch matchP2 fl with
    | some g => pyStrip g
    | none =>
      match reSearch matchP3 fl with
      | some g => pyStrip g
      | none => ("Unknown Author".data)

/-- extract_author from generate_svg_covers.py: read the first 50 lines,
then apply the ordered pattern chain. -/
def extract_author (content : List Char) : List Char :=
  authorFromLines (firstLines 50 content)

/-! ### Title derivation (generate_svg_covers.py, title_to_display_name) -/

/-- Index of the last occurrence of a char, for os.path.splitext's rfind. -/
def rfindChar (s : List Char) (c : Char) : Option Nat :=
  match s with
  | [] => none
  | d :: t =>
    match rfindChar t c with
    | some i => some (i + 1)
    | none => if d = c then some 0 else none

/-- os.path.splitext(p)[0] for a path with no directory separator: cut at the
last '.', unless every character before it is a '.' (leading-dot rule). -/
def splitextRoot (s : List Char) : List Char :=
  match rfindChar s '.' with
  | none => s
  | some d => if (s.take d).any (fun c => !(c = '.')) then s.take d else s

/-- Python str.replace for a single-character needle (used for '-' → ' '
and '2' → "Two"). -/
def pyReplaceChar (needle : Char) (repl : List Char) : List Char → List Char
  | [] => []
  | c :: rest =>
    if c = needle then repl ++ pyReplaceChar needle repl rest
    else c :: pyReplaceChar needle repl rest

/-- Python str.split() with no argument: split on whitespace runs, dropping
empty words.  The accumulator holds the current word reversed. -/
def splitWSAux : List Char → List Char → List (List Char)
  | [], acc => if acc.isEmpty then [] else [acc.reverse]
  | c :: rest, acc =>
    if isSpaceChar c then
      if acc.isEmpty then splitWSAux rest []
      else acc.reverse :: splitWSAux rest []
    else splitWSAux rest (c :: acc)

/-- Python str.split() with no argument. -/
def pySplitWS (s : List Char) : List (List Char) :=
  splitWSAux s []

/-- Python str.capitalize(): first character uppercased, the rest lowercased
(ASCII, which covers the repository's file names). -/
def pyCapitalize : List Char → List Char
  | [] => []
  | c :: rest => c.toUpper :: rest.map Char.toLower

/-- The closed minor-word set of title_to_display_name. -/
def minor_words : List (List Char) :=
  [("a".data), ("an".data), ("the".data), ("and".data), ("but".data),
   ("or".data), ("for".data), ("nor".data), ("of".data), ("on".data),
   ("in".data), ("to".data), ("with".data), ("by".data)]

/-- The capitalization loop: word i is capitalized when it is first, last, or
its lowercase form is not a minor word. -/
def capWordsLoop (total : Nat) : Nat → List (List Char) → List (List Char)
  | _, [] => []
  | i, w :: ws =>
    (if i = 0 ∨ i = total - 1 ∨ ¬ (w.map Char.toLower) ∈ minor_words
     then pyCapitalize w else w) :: capWordsLoop total (i + 1) ws

/-- Python ' '.join(...). -/
def joinSp : List (List Char) → List Char
  | [] => []
  | [w] => w
  | w :: ws => w ++ ' ' :: joinSp ws

/-- title_to_display_name from generate_svg_covers.py: drop the extension,
hyphens to spaces, '2' to "Two", then capitalize non-minor words. -/
def title_to_display_name (filename : List Char) : List Char :=
  let name := pyReplaceChar '-' [' '] (splitextRoot filename)
  let name2 := pyReplaceChar '2' ("Two".data) name
  let words := pySplitWS name2
  joinSp (capWordsLoop words.length 0 words)

/-! ### Cover layout (generate_svg_covers.py, create_svg_cover lines 78-83) -/

/-- Python s.split(' ') with an explicit separator: empties are kept. -/
def splitSpAux : List Char → List Char → List (List Char)
  | [], acc => [acc.reverse]
  | c :: rest, acc =>
    if c = ' ' then acc.reverse :: splitSpAux rest []
    else splitSpAux rest (c :: acc)

/-- Python s.split(' '). -/
def splitOnSpace (s : List Char) : List (List Char) :=
  splitSpAux s []

/-- The layout descriptor create_svg_cover interpolates into the SVG: the
first title line, the optional second title line, and the author line. -/
structure CoverLayout where
  titleLine1 : List Char
  titleLine2 : Option (List Char)
  author : List Char
  deriving DecidableEq, Repr

/-- The layout logic of create_svg_cover: line 1 is
display_title.split(' ')[:3] and ' '.join(...) or display_title (Python
truthiness), line 2 is ' '.join(words[3:]) only when there are more than
three words. -/
def plan (title author : List Char) : CoverLayout :=
  let words := splitOnSpace title
  let firstThree := joinSp (words.take 3)
  { titleLine1 :=
      if (words.take 3).isEmpty then title
      else if firstThree.isEmpty then title
      else firstThree
    titleLine2 :=
      if 3 < words.length then some (joinSp (words.drop 3)) else none
    author := author }

/-! ### Analysis vocabulary used by the theorems -/

/-- Total number of newlines in a string (for the 50-line read bound). -/
def countNL : List Char → Nat
  | [] => 0
  | c :: rest => (if c = '\n' then 1 else 0) + countNL rest

/-- Number of newlines inside the leading whitespace run. -/
def nlWS : List Char → Nat
  | [] => 0
  | c :: rest =>
    if isSpaceChar c then (if c = '\n' then 1 else 0) + nlWS rest else 0

/-- Index of the last newline inside the leading whitespace run. -/
def lastNL : List Char → Option Nat
  | [] => none
  | c :: rest =>
    if isSpaceChar c then
      match lastNL rest with
      | some i => some (i + 1)
      | none => if c = '\n' then some 0 else none
    else none

/-- Whether the string contains three consecutive newlines. -/
def hasNNN : List Char → Bool
  | c :: d :: e :: t =>
    if c = '\n' && d = '\n' && e = '\n' then true else hasNNN (d :: e :: t)
  | _ => false

/-- Whether the string contains two adjacent horizontal-whitespace chars. -/
def hasHT2 : List Char → Bool
  | c :: d :: t => if isHT c && isHT d then true else hasHT2 (d :: t)
  | _ => false

/-- The string does not start with a whitespace character. -/
def noLeadWS (s : List Char) : Bool :=
  match s.head? with
  | some c => !isSpaceChar c
  | none => true

/-- The string does not end with a whitespace character. -/
def noTrailWS (s : List Char) : Bool :=
  match s.getLast? with
  | some c => !isSpaceChar c
  | none => true

/-- Every whitespace run anywhere in the string holds at most two newlines
(the shape of subBlank's output). -/
def noTriple (s : List Char) : Prop :=
  ∀ i, nlWS (s.drop i) ≤ 2

/-- Every horizontal-whitespace run anywhere in the string is a single
space (the shape of subHT's output). -/
def htSingles (s : List Char) : Prop :=
  ∀ i, countLeadHT (s.drop i) ≤ 1 ∧ ¬ (s.drop i).head? = some '\t'

/-! ## Helper lemmas -/

theorem isPrefixOf_length_le : ∀ (p q : List Char), p.isPrefixOf q = true →
    p.length ≤ q.length := by
  intro p
  induction p with
  | nil => intro q _; simp
  | cons a as ih =>
    intro q h
    cases q with
    | nil => simp [List.isPrefixOf] at h
    | cons b bs =>
      rw [List.isPrefixOf, Bool.and_eq_true] at h
      have := ih bs h.2
      simp only [List.length_cons]
      omega

theorem findIdx?_add_le :
    ∀ (hay needle : List Char) (p : Nat), findIdx? hay needle = some p →
      p + needle.length ≤ hay.length := by
  intro hay
  induction hay with
  | nil =>
    intro needle p h
    rw [findIdx?] at h
    split at h
    · rename_i hp
      cases h
      simpa using isPrefixOf_length_le needle [] hp
    · simp at h
  | cons a t ih =>
    intro needle p h
    rw [findIdx?] at h
    split at h
    · rename_i hp
      cases h
      simpa using isPrefixOf_length_le needle (a :: t) hp
    · simp only [Option.map_eq_some'] at h
      obtain ⟨q, hq, rfl⟩ := h
      have := ih needle q hq
      simp only [List.length_cons]
      omega

theorem findStartLoop_bounds (t : List Char) :
    ∀ ms, -1 ≤ findStartLoop t ms ∧ findStartLoop t ms ≤ (t.length : Int) := by
  intro ms
  induction ms with
  | nil =>
    constructor
    · rw [findStartLoop]; omega
    · rw [findStartLoop]; positivity
  | cons m ms ih =>
    rw [findStartLoop]
    cases hf : findIdx? t m with
    | none => simpa [hf] using ih
    | some pos =>
      have hp := findIdx?_add_le t m pos hf
      simp only [hf, lineEndAfter]
      cases hk : findIdx? (t.drop pos) ['\n'] with
      | none => simp only [hk]; omega
      | some k =>
        have hk2 := findIdx?_add_le (t.drop pos) ['\n'] k hk
        rw [List.length_drop] at hk2
        simp only [List.length_cons, List.length_nil] at hk2
        simp only [hk]
        omega

theorem findEndLoop_bounds (t : List Char) :
    ∀ ms, 0 ≤ findEndLoop t ms ∧ findEndLoop t ms ≤ (t.length : Int) := by
  intro ms
  induction ms with
  | nil =>
    constructor
    · rw [findEndLoop]; positivity
    · rw [findEndLoop]
  | cons m ms ih =>
    rw [findEndLoop]
    cases hf : findIdx? t m with
    | none => simpa [hf] using ih
    | some pos =>
      have hp := findIdx?_add_le t m pos hf
      simp only [hf]
      constructor
      · positivity
      · omega

/-! ## Claims C1, C4, C5, C7, C8, C10 -/

/-- C1 (amended): for every content, the end offset satisfies
0 ≤ sliceEnd ≤ len, and the start offset satisfies -1 ≤ sliceStart ≤ len
(it is -1 exactly when a start marker matched on an unterminated final
line); sliceStart ≤ sliceEnd does not hold in general. -/
theorem C1_boundary_bounds (t : List Char) :
    -1 ≤ findStart t ∧ findStart t ≤ (t.length : Int) ∧
    0 ≤ findEnd t ∧ findEnd t ≤ (t.length : Int) := by
  have h1 := findStartLoop_bounds t start_markers
  have h2 := findEndLoop_bounds t end_markers
  exact ⟨h1.1, h1.2, h2.1, h2.2⟩

/-- C1 counterexample: a document whose end marker occurs before the start
marker's line end makes sliceStart exceed sliceEnd, refuting the claimed
invariant sliceStart ≤ sliceEnd. -/
theorem C1_counterexample :
    ¬ (findStart
        ("*** END OF THE PROJECT GUTENBERG EBOOK\n*** START OF THE PROJECT GUTENBERG EBOOK\nX".data)
      ≤ findEnd
        ("*** END OF THE PROJECT GUTENBERG EBOOK\n*** START OF THE PROJECT GUTENBERG EBOOK\nX".data)) := by
  decide

set_option maxRecDepth 1000000 in
/-- C4: at a document whose matched start marker sits on an unterminated
final line, the code leaves start_pos = -1 (find's failure sentinel) instead
of the end of the marker's line, and the Python slice text[-1:end] then
starts at the last character: clean_text returns "C" rather than "". -/
theorem C4_unterminated_marker_line :
    findStart ("*** START OF THE PROJECT GUTENBERG EBOOK ABC".data) = -1 ∧
    clean_text ("*** START OF THE PROJECT GUTENBERG EBOOK ABC".data) = ("C".data) := by
  constructor
  · decide
  · decide

/-- C5: candidate selection is first-match-by-list-priority, not by position
in the text: for the start-marker list, the end-marker list and the author
pattern list, a hit for the earlier-listed candidate determines the result
even when the later-listed candidate occurs strictly earlier in the text. -/
theorem C5_list_priority :
    (∀ (t : List Char) (pA pB : Nat),
        findIdx? t ("*** START OF THE PROJECT GUTENBERG EBOOK".data) = some pA →
        findIdx? t ("*** START OF THIS PROJECT GUTENBERG EBOOK".data) = some pB →
        pB < pA → findStart t = lineEndAfter t pA) ∧
    (∀ (t : List Char) (pA pB : Nat),
        findIdx? t ("*** END OF THE PROJECT GUTENBERG EBOOK".data) = some pA →
        findIdx? t ("*** END OF THIS PROJECT GUTENBERG EBOOK".data) = some pB →
        pB < pA → findEnd t = (pA : Int)) ∧
    (∀ (c g g2 : List Char),
        reSearch matchP1 (firstLines 50 c) = some g →
        reSearch matchP2 (firstLines 50 c) = some g2 →
        extract_author c = pyStrip g) := by
  refine ⟨?_, ?_, ?_⟩
  · intro t pA pB hA _ _
    simp [findStart, start_markers, findStartLoop, hA]
  · intro t pA pB hA _ _
    simp [findEnd, end_markers, findEndLoop, hA]
  · intro c g g2 h1 _
    simp [extract_author, authorFromLines, h1]

/-- C5 witness: concrete texts where the later-listed candidate occurs
first in the document, evaluated through the theorem. -/
theorem C5_witness :
    findStart
      ("*** START OF THIS PROJECT GUTENBERG EBOOK\n*** START OF THE PROJECT GUTENBERG EBOOK\nBODY".data)
      = 83 ∧
    findEnd
      ("*** END OF THIS PROJECT GUTENBERG EBOOK\n*** END OF THE PROJECT GUTENBERG EBOOK".data)
      = 40 ∧
    extract_author ("translated by Ann Smith\n".data) = ("Ann Smith".data) := by
  refine ⟨?_, ?_, ?_⟩
  · have h := C5_list_priority.1
      ("*** START OF THIS PROJECT GUTENBERG EBOOK\n*** START OF THE PROJECT GUTENBERG EBOOK\nBODY".data)
      42 0 (by decide) (by decide) (by decide)
    rw [h]; decide
  · have h := C5_list_priority.2.1
      ("*** END OF THIS PROJECT GUTENBERG EBOOK\n*** END OF THE PROJECT GUTENBERG EBOOK".data)
      40 0 (by decide) (by decide) (by decide)
    simpa using h
  · have h := C5_list_priority.2.2 ("translated by Ann Smith\n".data)
      ("Ann Smith".data) ("Ann Smith".data) (by decide) (by decide)
    rw [h]; decide

/-- C7: title_to_display_name maps "tale-of-2-cities.txt" to
"Tale of Two Cities": extension dropped, hyphens to spaces, '2' to "Two",
words capitalized except the interior minor word "of". -/
theorem C7_title_display :
    title_to_display_name ("tale-of-2-cities.txt".data) = ("Tale of Two Cities".data) := by
  decide

/-- C8: both boundary searches may fail independently and default to the
document's natural edges: with no start marker start_pos = 0, with no end
marker end_pos = len(text); the embedded clean_text is a total function. -/
theorem C8_missing_marker_defaults (t : List Char) :
    ((∀ m ∈ start_markers, findIdx? t m = none) → findStart t = 0) ∧
    ((∀ m ∈ end_markers, findIdx? t m = none) → findEnd t = (t.length : Int)) := by
  constructor
  · intro h
    have h1 := h (("*** START OF THE PROJECT GUTENBERG EBOOK").data) (by simp [start_markers])
    have h2 := h (("*** START OF THIS PROJECT GUTENBERG EBOOK").data) (by simp [start_markers])
    have h3 := h (("***START OF THE PROJECT GUTENBERG EBOOK").data) (by simp [start_markers])
    simp [findStart, start_markers, findStartLoop, h1, h2, h3]
  · intro h
    have h1 := h (("*** END OF THE PROJECT GUTENBERG EBOOK").data) (by simp [end_markers])
    have h2 := h (("*** END OF THIS PROJECT GUTENBERG EBOOK").data) (by simp [end_markers])
    have h3 := h (("***END OF THE PROJECT GUTENBERG EBOOK").data) (by simp [end_markers])
    simp [findEnd, end_markers, findEndLoop, h1, h2, h3]

/-- C8 witness: a marker-free document keeps both natural edges. -/
theorem C8_witness :
    findStart ("hello".data) = 0 ∧
    findEnd ("hello".data) = (("hello".data).length : Int) := by
  constructor
  · exact (C8_missing_marker_defaults ("hello".data)).1 (by decide)
  · exact (C8_missing_marker_defaults ("hello".data)).2 (by decide)

/-- C10: extract_author reads only the first 50 lines: contents with equal
50-line prefixes yield equal authors. -/
theorem C10_author_prefix_only (c1 c2 : List Char)
    (h : firstLines 50 c1 = firstLines 50 c2) :
    extract_author c1 = extract_author c2 := by
  unfold extract_author
  rw [h]

/-- C10 witness: two documents differing only after line 50. -/
theorem C10_witness :
    List.replicate 50 '\n' ++ ("by Ann Smith\n".data)
      ≠ List.replicate 50 '\n' ++ ("by Bob Jones\n".data) ∧
    extract_author (List.replicate 50 '\n' ++ ("by Ann Smith\n".data)) =
      extract_author (List.replicate 50 '\n' ++ ("by Bob Jones\n".data)) :=
  ⟨by decide, C10_author_prefix_only _ _ (by decide)⟩

/-! ## Claim C9: the cover layout split -/

theorem splitSpAux_ne_nil : ∀ (s acc : List Char), splitSpAux s acc ≠ [] := by
  intro s
  induction s with
  | nil => intro acc; simp [splitSpAux]
  | cons c rest ih =>
    intro acc
    rw [splitSpAux]
    split
    · simp
    · exact ih _

theorem splitSpAux_head (s : List Char) :
    ∀ acc, (splitSpAux s acc).head? =
      some (acc.reverse ++ s.takeWhile (fun c => !(c = ' '))) := by
  induction s with
  | nil => intro acc; simp [splitSpAux]
  | cons c rest ih =>
    intro acc
    rw [splitSpAux]
    by_cases hc : c = ' '
    · subst hc
      simp [List.takeWhile_cons]
    · rw [if_neg hc, ih (c :: acc)]
      simp [List.takeWhile_cons, hc]

theorem joinSp_eq_nil {w : List Char} {l : List (List Char)}
    (h : joinSp (w :: l) = []) : w = [] ∧ l = [] := by
  cases l with
  | nil => exact ⟨h, rfl⟩
  | cons x xs =>
    exfalso
    have h' : w ++ ' ' :: joinSp (x :: xs) = [] := h
    rcases List.append_eq_nil.mp h' with ⟨_, h2⟩
    cases h2

theorem joinSp_take3_eq_nil {t : List Char}
    (h : joinSp ((splitOnSpace t).take 3) = []) : t = [] := by
  cases t with
  | nil => rfl
  | cons c rest =>
    exfalso
    have hh := splitSpAux_head (c :: rest) []
    cases hsp : splitSpAux (c :: rest) [] with
    | nil => exact splitSpAux_ne_nil _ _ hsp
    | cons w ws =>
      rw [hsp] at hh
      simp only [List.head?_cons, Option.some_inj, List.reverse_nil,
        List.nil_append] at hh
      rw [splitOnSpace, hsp] at h
      have h3 : List.take 3 (w :: ws) = w :: List.take 2 ws := rfl
      rw [h3] at h
      have hw := joinSp_eq_nil h
      have hws : ws = [] := by
        rcases List.take_eq_nil_iff.mp hw.2 with h' | h'
        · omega
        · exact h'
      by_cases hc : c = ' '
      · subst hc
        have hsp2 : ([] : List Char) :: splitSpAux rest [] = w :: ws := by
          rw [← hsp]; rfl
        injection hsp2 with _ hsp3
        exact splitSpAux_ne_nil rest [] (hsp3.trans hws)
      · rw [hw.1] at hh
        rw [List.takeWhile_cons, if_pos (by simpa using hc)] at hh
        cases hh

/-- C9: the cover layout splits the display title's space-separated words
into a first line of up to three words and an optional remainder line,
omitted when the title has at most three words; in particular
plan "A Tale of Two Cities" gives "A Tale of" / "Two Cities". -/
theorem C9_plan_split (title author : List Char) :
    (plan title author).titleLine1 = joinSp ((splitOnSpace title).take 3) ∧
    (plan title author).titleLine2 =
      (if 3 < (splitOnSpace title).length
        then some (joinSp ((splitOnSpace title).drop 3)) else none) ∧
    (plan ("A Tale of Two Cities".data) ("Charles Dickens".data)).titleLine1
      = ("A Tale of".data) ∧
    (plan ("A Tale of Two Cities".data) ("Charles Dickens".data)).titleLine2
      = some ("Two Cities".data) := by
  refine ⟨?_, by rfl, by decide, by decide⟩
  by_cases h1 : ((splitOnSpace title).take 3).isEmpty
  · exfalso
    rw [List.isEmpty_iff] at h1
    rcases List.take_eq_nil_iff.mp h1 with h' | h'
    · omega
    · exact splitSpAux_ne_nil title [] h'
  · by_cases h2 : (joinSp ((splitOnSpace title).take 3)).isEmpty
    · rw [List.isEmpty_iff] at h2
      have ht : title = [] := joinSp_take3_eq_nil h2
      subst ht
      simp [plan, splitOnSpace, splitSpAux, joinSp]
    · simp [plan, h1, h2]

/-! ## Claim C2: the "by Jane Austen" extraction -/

theorem reSearch_append (m : List Char → Option (List Char)) :
    ∀ (p q : List Char), (∀ i, i < p.length → m (p.drop i ++ q) = none) →
      reSearch m (p ++ q) = reSearch m q := by
  intro p
  induction p with
  | nil => intro q _; rfl
  | cons c p' ih =>
    intro q h
    have h0 := h 0 (by simp)
    rw [List.drop_zero, List.cons_append] at h0
    rw [List.cons_append, reSearch]
    simp only [h0]
    exact ih q (fun i hi => by
      have := h (i + 1) (by simpa using Nat.succ_lt_succ hi)
      simpa using this)

theorem countNL_append (p q : List Char) :
    countNL (p ++ q) = countNL p + countNL q := by
  induction p with
  | nil => simp [countNL]
  | cons c rest ih =>
    rw [List.cons_append, countNL, countNL, ih]
    omega

theorem firstLines_eq_self : ∀ (n : Nat) (s : List Char), countNL s < n →
    firstLines n s = s := by
  intro n s
  induction s generalizing n with
  | nil => intro _; cases n <;> rfl
  | cons c rest ih =>
    intro h
    cases n with
    | zero => omega
    | succ mm =>
      rw [firstLines]
      by_cases hc : c = '\n'
      · rw [if_pos hc, ih mm]
        rw [countNL, if_pos hc] at h
        omega
      · rw [if_neg hc, ih (mm + 1)]
        rw [countNL, if_neg hc] at h
        omega

/-- C2 (amended): when the line "by Jane Austen\n" closes the scanned
region (the content is p ++ "by Jane Austen\n" with p inside the 50-line
read bound) and the first pattern has no match starting inside p, the
extracted author is exactly "Jane Austen".  Unrestricted trailing content
breaks the claim because the capture class [a-zA-Z.\s] includes newlines
and matches greedily across lines. -/
theorem C2_amended_first_pattern (p : List Char)
    (hnl : countNL p ≤ 48)
    (hno : ∀ i, i < p.length →
      matchP1 ((p ++ ("by Jane Austen\n".data)).drop i) = none) :
    extract_author (p ++ ("by Jane Austen\n".data)) = ("Jane Austen".data) := by
  have hfl : firstLines 50 (p ++ ("by Jane Austen\n".data))
      = p ++ ("by Jane Austen\n".data) := by
    apply firstLines_eq_self
    rw [countNL_append]
    have hq : countNL ("by Jane Austen\n".data) = 1 := by decide
    omega
  have hdrop : ∀ i, i < p.length →
      matchP1 (p.drop i ++ ("by Jane Austen\n".data)) = none := by
    intro i hi
    have hh := hno i hi
    rwa [List.drop_append_eq_append_drop,
      Nat.sub_eq_zero_of_le (le_of_lt hi), List.drop_zero] at hh
  have hs : reSearch matchP1 (p ++ ("by Jane Austen\n".data)) =
      reSearch matchP1 ("by Jane Austen\n".data) :=
    reSearch_append matchP1 p _ hdrop
  have hj : reSearch matchP1 ("by Jane Austen\n".data)
      = some ("Jane Austen".data) := by decide
  rw [extract_author, hfl, authorFromLines, hs, hj]
  show pyStrip ("Jane Austen".data) = ("Jane Austen".data)
  decide

/-- C2 witness for the amended claim at a concrete title page. -/
theorem C2_amended_witness :
    extract_author (("Pride and Prejudice\n".data) ++ ("by Jane Austen\n".data))
      = ("Jane Austen".data) :=
  C2_amended_first_pattern ("Pride and Prejudice\n".data) (by decide) (by decide)

/-- C2 counterexample: content containing the line "by Jane Austen\n" inside
the scanned prefix for which extract_author does not return "Jane Austen":
the greedy capture continues past the newline into the following line. -/
theorem C2_counterexample :
    ("by Jane Austen\nMore Text\n".data)
      = ("by Jane Austen\n".data) ++ ("More Text\n".data) ∧
    extract_author ("by Jane Austen\nMore Text\n".data)
      = ("Jane Austen\nMore Text".data) ∧
    ¬ extract_author ("by Jane Austen\nMore Text\n".data) = ("Jane Austen".data) := by
  refine ⟨by decide, by decide, by decide⟩

/-! ## Characterization of the blank-line matcher

matchA succeeds exactly on a leading whitespace run holding at least three
newlines, and the greedy backtracking match always ends just after the last
newline of that run. -/

theorem nlWS_cons (c : Char) (x : List Char) :
    nlWS (c :: x) =
      if isSpaceChar c then (if c = '\n' then 1 else 0) + nlWS x else 0 := rfl

theorem lastNL_none_iff : ∀ s : List Char, lastNL s = none ↔ nlWS s = 0 := by
  intro s
  induction s with
  | nil => simp [lastNL, nlWS]
  | cons c rest ih =>
    rw [lastNL, nlWS_cons]
    by_cases hs : isSpaceChar c
    · rw [if_pos hs, if_pos hs]
      by_cases hc : c = '\n'
      · subst hc
        simp only [if_pos rfl]
        cases hl : lastNL rest with
        | some i => simp
        | none => simp
      · rw [if_neg hc, if_neg hc]
        cases hl : lastNL rest with
        | none => simpa using ih.mp hl
        | some i =>
          simp only []
          constructor
          · intro hh; cases hh
          · intro hh
            have hz := ih.mpr (by omega)
            rw [hz] at hl
            cases hl
    · simp [if_neg hs]

theorem countLeadNL_of_nlWS_zero {s : List Char} (h : nlWS s = 0) :
    countLeadNL s = 0 := by
  cases s with
  | nil => rfl
  | cons c rest =>
    rw [countLeadNL]
    by_cases hc : c = '\n'
    · exfalso
      rw [nlWS_cons, hc] at h
      simp [isSpaceChar] at h
    · rw [if_neg hc]

theorem wsStarNlPlus_eq : ∀ s : List Char,
    wsStarNlPlus s = (lastNL s).map (· + 1) := by
  intro s
  induction s with
  | nil => simp [wsStarNlPlus, lastNL]
  | cons c rest ih =>
    rw [wsStarNlPlus, lastNL]
    by_cases hs : isSpaceChar c
    · rw [if_pos hs, if_pos hs, ih]
      cases hl : lastNL rest with
      | some i => simp
      | none =>
        simp only [Option.map_none']
        rw [nlPlusLen]
        have h0 : nlWS rest = 0 := (lastNL_none_iff rest).mp hl
        rw [countLeadNL_of_nlWS_zero h0]
        by_cases hc : c = '\n'
        · rw [if_pos hc, if_pos hc]; rfl
        · rw [if_neg hc, if_neg hc]; rfl
    · rw [if_neg hs, if_neg hs]
      rw [nlPlusLen]
      have hc : ¬ c = '\n' := by
        intro hh; rw [hh] at hs; exact hs (by decide)
      rw [if_neg hc]
      rfl

theorem wsStarNlWsNlPlus_eq : ∀ s : List Char,
    wsStarNlWsNlPlus s =
      if 2 ≤ nlWS s then (lastNL s).map (· + 1) else none := by
  intro s
  induction s with
  | nil => simp [wsStarNlWsNlPlus, nlWS]
  | cons c rest ih =>
    rw [wsStarNlWsNlPlus]
    by_cases hs : isSpaceChar c
    · rw [if_pos hs, ih]
      by_cases h2 : 2 ≤ nlWS rest
      · have hl : ∃ i, lastNL rest = some i := by
          cases hl : lastNL rest with
          | none => exact absurd ((lastNL_none_iff rest).mp hl) (by omega)
          | some i => exact ⟨i, rfl⟩
        obtain ⟨i, hl⟩ := hl
        rw [if_pos h2, hl]
        have h2s : 2 ≤ nlWS (c :: rest) := by
          rw [nlWS_cons, if_pos hs]; split <;> omega
        rw [if_pos h2s, lastNL, if_pos hs, hl]
        rfl
      · rw [if_neg h2, nlWsNlPlus]
        by_cases hc : c = '\n'
        · rw [if_pos hc, wsStarNlPlus_eq]
          have hnl : nlWS (c :: rest) = 1 + nlWS rest := by
            rw [nlWS_cons, if_pos hs, if_pos hc]
          by_cases h1 : 1 ≤ nlWS rest
          · have hl : ∃ i, lastNL rest = some i := by
              cases hl : lastNL rest with
              | none => exact absurd ((lastNL_none_iff rest).mp hl) (by omega)
              | some i => exact ⟨i, rfl⟩
            obtain ⟨i, hl⟩ := hl
            rw [hl]
            have h2s : 2 ≤ nlWS (c :: rest) := by omega
            rw [if_pos h2s, lastNL, if_pos hs, hl]
            rfl
          · have hl : lastNL rest = none := (lastNL_none_iff rest).mpr (by omega)
            rw [hl]
            have h2s : ¬ 2 ≤ nlWS (c :: rest) := by omega
            rw [if_neg h2s]
            rfl
        · rw [if_neg hc]
          have hnl : nlWS (c :: rest) = nlWS rest := by
            rw [nlWS_cons, if_pos hs, if_neg hc]; omega
          have h2s : ¬ 2 ≤ nlWS (c :: rest) := by omega
          rw [if_neg h2s]
    · have hc : ¬ c = '\n' := by
        intro hh; rw [hh] at hs; exact hs (by decide)
      rw [if_neg hs, nlWsNlPlus, if_neg hc]
      have h2s : ¬ 2 ≤ nlWS (c :: rest) := by
        rw [nlWS_cons, if_neg hs]; omega
      rw [if_neg h2s]

theorem matchA_eq (c : Char) (rest : List Char) :
    matchA (c :: rest) =
      if c = '\n' then
        (if 2 ≤ nlWS rest then (lastNL rest).map (· + 2) else none)
      else none := by
  rw [matchA, wsStarNlWsNlPlus_eq]
  by_cases hc : c = '\n'
  · rw [if_pos hc, if_pos hc]
    by_cases h2 : 2 ≤ nlWS rest
    · rw [if_pos h2, if_pos h2]
      cases lastNL rest <;> rfl
    · rw [if_neg h2, if_neg h2]
      rfl
  · rw [if_neg hc, if_neg hc]

theorem matchA_none_of_le {s : List Char} (h : nlWS s ≤ 2) :
    matchA s = none := by
  cases s with
  | nil => rfl
  | cons c rest =>
    rw [matchA_eq]
    by_cases hc : c = '\n'
    · rw [if_pos hc]
      have hs : isSpaceChar c = true := by rw [hc]; decide
      rw [nlWS_cons, if_pos hs, if_pos hc] at h
      rw [if_neg (by omega : ¬ 2 ≤ nlWS rest)]
    · rw [if_neg hc]

theorem matchA_some_data {c : Char} {rest : List Char} {n : Nat}
    (h : matchA (c :: rest) = some n) :
    c = '\n' ∧ ∃ i, lastNL rest = some i ∧ n = i + 2 ∧ 2 ≤ nlWS rest := by
  rw [matchA_eq] at h
  by_cases hc : c = '\n'
  · rw [if_pos hc] at h
    by_cases h2 : 2 ≤ nlWS rest
    · rw [if_pos h2] at h
      cases hl : lastNL rest with
      | none => rw [hl] at h; cases h
      | some i =>
        rw [hl] at h
        refine ⟨hc, i, rfl, ?_, h2⟩
        simpa using h.symm
    · rw [if_neg h2] at h; cases h
  · rw [if_neg hc] at h; cases h

theorem lastNL_drop : ∀ (s : List Char) (i : Nat), lastNL s = some i →
    s.drop i = '\n' :: s.drop (i + 1) ∧ nlWS (s.drop (i + 1)) = 0 := by
  intro s
  induction s with
  | nil => intro i h; cases h
  | cons c rest ih =>
    intro i h
    rw [lastNL] at h
    by_cases hs : isSpaceChar c
    · rw [if_pos hs] at h
      cases hl : lastNL rest with
      | some j =>
        rw [hl] at h
        cases h
        have := ih j hl
        exact ⟨this.1, this.2⟩
      | none =>
        rw [hl] at h
        by_cases hc : c = '\n'
        · rw [if_pos hc] at h
          cases h
          subst hc
          exact ⟨rfl, (lastNL_none_iff rest).mp hl⟩
        · rw [if_neg hc] at h
          cases h
    · rw [if_neg hs] at h
      cases h

/-! ## Invariants of the blank-line pass -/

theorem reSubAux_nil (m : List Char → Option Nat) (repl : List Char)
    (fuel : Nat) : reSubAux m repl fuel [] = [] := by
  cases fuel <;> rfl

theorem reSubAux_cons (m : List Char → Option Nat) (repl : List Char)
    (fuel : Nat) (c : Char) (rest : List Char) :
    reSubAux m repl (fuel + 1) (c :: rest) =
      (match m (c :: rest) with
       | some n => repl ++ reSubAux m repl fuel (rest.drop (n - 1))
       | none => c :: reSubAux m repl fuel rest) := rfl

theorem reSubA_nlWS : ∀ (fuel : Nat) (s : List Char), s.length ≤ fuel →
    nlWS s ≤ 2 → nlWS (reSubAux matchA ['\n', '\n'] fuel s) = nlWS s := by
  intro fuel
  induction fuel with
  | zero =>
    intro s hl _
    rw [List.length_eq_zero.mp (Nat.le_zero.mp hl)]
    rfl
  | succ fuel ih =>
    intro s hl h2
    cases s with
    | nil => rfl
    | cons c rest =>
      rw [List.length_cons] at hl
      simp only [reSubAux_cons, matchA_none_of_le h2]
      by_cases hs : isSpaceChar c
      · have hrest : nlWS rest ≤ 2 := by
          rw [nlWS_cons, if_pos hs] at h2
          omega
        rw [nlWS_cons, nlWS_cons, if_pos hs, if_pos hs,
          ih rest (by omega) hrest]
      · rw [nlWS_cons, nlWS_cons, if_neg hs, if_neg hs]

theorem reSubA_nlWS_le2 : ∀ (fuel : Nat) (s : List Char), s.length ≤ fuel →
    nlWS (reSubAux matchA ['\n', '\n'] fuel s) ≤ 2 := by
  intro fuel
  induction fuel with
  | zero =>
    intro s hl
    rw [List.length_eq_zero.mp (Nat.le_zero.mp hl), reSubAux_nil]
    decide
  | succ fuel ih =>
    intro s hl
    cases s with
    | nil => rw [reSubAux_nil]; decide
    | cons c rest =>
      rw [List.length_cons] at hl
      cases hm : matchA (c :: rest) with
      | none =>
        simp only [reSubAux_cons, hm]
        by_cases hs : isSpaceChar c
        · by_cases hc : c = '\n'
          · have h1 : ¬ 2 ≤ nlWS rest := by
              intro hge
              have hlx : ∃ i, lastNL rest = some i := by
                cases hlx : lastNL rest with
                | none => exact absurd ((lastNL_none_iff rest).mp hlx) (by omega)
                | some i => exact ⟨i, rfl⟩
              obtain ⟨i, hli⟩ := hlx
              rw [matchA_eq, if_pos hc, if_pos hge, hli] at hm
              cases hm
            have hrest : nlWS rest ≤ 2 := by omega
            rw [nlWS_cons, if_pos hs, reSubA_nlWS fuel rest (by omega) hrest]
            split <;> omega
          · rw [nlWS_cons, if_pos hs, if_neg hc]
            have := ih rest (by omega)
            omega
        · rw [nlWS_cons, if_neg hs]
          omega
      | some n =>
        simp only [reSubAux_cons, hm]
        obtain ⟨hc, i, hli, hn, hge⟩ := matchA_some_data hm
        have hd : rest.drop (n - 1) = rest.drop (i + 1) := by
          congr 1
          omega
        rw [hd]
        have hlen : (rest.drop (i + 1)).length ≤ fuel := by
          rw [List.length_drop]
          omega
        have h0 := (lastNL_drop rest i hli).2
        have hz : nlWS (reSubAux matchA ['\n', '\n'] fuel (rest.drop (i + 1)))
            = 0 := by
          rw [reSubA_nlWS fuel _ hlen (by omega), h0]
        simp only [List.cons_append, List.nil_append]
        rw [nlWS_cons, nlWS_cons, if_pos (by decide : isSpaceChar '\n' = true),
          if_pos (by decide : isSpaceChar '\n' = true)]
        simp [hz]

theorem reSubA_noTriple : ∀ (fuel : Nat) (s : List Char), s.length ≤ fuel →
    noTriple (reSubAux matchA ['\n', '\n'] fuel s) := by
  intro fuel
  induction fuel with
  | zero =>
    intro s hl i
    rw [List.length_eq_zero.mp (Nat.le_zero.mp hl), reSubAux_nil,
      List.drop_nil]
    decide
  | succ fuel ih =>
    intro s hl
    cases s with
    | nil =>
      intro i
      rw [reSubAux_nil, List.drop_nil]
      decide
    | cons c rest =>
      rw [List.length_cons] at hl
      cases hm : matchA (c :: rest) with
      | none =>
        intro i
        simp only [reSubAux_cons, hm]
        cases i with
        | zero =>
          rw [List.drop_zero]
          have hall := reSubA_nlWS_le2 (fuel + 1) (c :: rest)
            (by rw [List.length_cons]; omega)
          simpa only [reSubAux_cons, hm] using hall
        | succ i =>
          rw [List.drop_succ_cons]
          exact ih rest (by omega) i
      | some n =>
        intro i
        simp only [reSubAux_cons, hm]
        obtain ⟨hc, j, hlj, hn, hge⟩ := matchA_some_data hm
        have hd : rest.drop (n - 1) = rest.drop (j + 1) := by
          congr 1
          omega
        rw [hd]
        have hlen : (rest.drop (j + 1)).length ≤ fuel := by
          rw [List.length_drop]
          omega
        have h0 := (lastNL_drop rest j hlj).2
        have hz : nlWS (reSubAux matchA ['\n', '\n'] fuel (rest.drop (j + 1)))
            = 0 := by
          rw [reSubA_nlWS fuel _ hlen (by omega), h0]
        simp only [List.cons_append, List.nil_append]
        cases i with
        | zero =>
          rw [List.drop_zero, nlWS_cons, nlWS_cons,
            if_pos (by decide : isSpaceChar '\n' = true),
            if_pos (by decide : isSpaceChar '\n' = true)]
          simp [hz]
        | succ i2 =>
          rw [List.drop_succ_cons]
          cases i2 with
          | zero =>
            rw [List.drop_zero, nlWS_cons,
              if_pos (by decide : isSpaceChar '\n' = true)]
            simp [hz]
          | succ i3 =>
            rw [List.drop_succ_cons]
            exact ih (rest.drop (j + 1)) hlen i3

theorem reSubA_id : ∀ (fuel : Nat) (s : List Char), s.length ≤ fuel →
    noTriple s → reSubAux matchA ['\n', '\n'] fuel s = s := by
  intro fuel
  induction fuel with
  | zero =>
    intro s hl _
    rw [List.length_eq_zero.mp (Nat.le_zero.mp hl), reSubAux_nil]
  | succ fuel ih =>
    intro s hl ht
    cases s with
    | nil => rw [reSubAux_nil]
    | cons c rest =>
      rw [List.length_cons] at hl
      have h0 := ht 0
      rw [List.drop_zero] at h0
      simp only [reSubAux_cons, matchA_none_of_le h0]
      have hrest : noTriple rest := by
        intro i
        have := ht (i + 1)
        rwa [List.drop_succ_cons] at this
      rw [ih rest (by omega) hrest]

/-! ## Invariants of the horizontal-whitespace pass -/

theorem isHT_cases {c : Char} (h : isHT c = true) : c = ' ' ∨ c = '\t' := by
  simpa [isHT] using h

theorem countLeadHT_drop : ∀ s : List Char,
    countLeadHT (s.drop (countLeadHT s)) = 0 := by
  intro s
  induction s with
  | nil => rfl
  | cons c rest ih =>
    rw [countLeadHT]
    by_cases hh : isHT c
    · rw [if_pos hh]
      have : (1 + countLeadHT rest) = countLeadHT rest + 1 := by omega
      rw [this, List.drop_succ_cons]
      exact ih
    · rw [if_neg hh, List.drop_zero, countLeadHT, if_neg hh]

theorem nlWS_drop_HT : ∀ s : List Char,
    nlWS (s.drop (countLeadHT s)) = nlWS s := by
  intro s
  induction s with
  | nil => rfl
  | cons c rest ih =>
    rw [countLeadHT]
    by_cases hh : isHT c
    · rw [if_pos hh]
      have e1 : (1 + countLeadHT rest) = countLeadHT rest + 1 := by omega
      rw [e1, List.drop_succ_cons, ih, nlWS_cons]
      rcases isHT_cases hh with hc | hc <;> subst hc <;> simp [isSpaceChar]
    · rw [if_neg hh, List.drop_zero]

theorem reSubHT_nlWS : ∀ (fuel : Nat) (s : List Char), s.length ≤ fuel →
    nlWS (reSubAux matchHT [' '] fuel s) = nlWS s := by
  intro fuel
  induction fuel with
  | zero =>
    intro s hl
    rw [List.length_eq_zero.mp (Nat.le_zero.mp hl)]
    rfl
  | succ fuel ih =>
    intro s hl
    cases s with
    | nil => rfl
    | cons c rest =>
      rw [List.length_cons] at hl
      by_cases hh : isHT c
      · have hm : matchHT (c :: rest) = some (1 + countLeadHT rest) := by
          rw [matchHT, if_pos hh]
        simp only [reSubAux_cons, hm]
        have hd : 1 + countLeadHT rest - 1 = countLeadHT rest := by omega
        rw [hd]
        have hlen : (rest.drop (countLeadHT rest)).length ≤ fuel := by
          rw [List.length_drop]
          omega
        simp only [List.cons_append, List.nil_append]
        rw [nlWS_cons, if_pos (by decide : isSpaceChar ' ' = true),
          ih _ hlen, nlWS_drop_HT, nlWS_cons]
        rcases isHT_cases hh with hc | hc <;> subst hc <;> simp [isSpaceChar]
      · have hm : matchHT (c :: rest) = none := by
          rw [matchHT, if_neg hh]
        simp only [reSubAux_cons, hm]
        rw [nlWS_cons, nlWS_cons, ih rest (by omega)]

theorem reSubHT_noTriple : ∀ (fuel : Nat) (s : List Char), s.length ≤ fuel →
    noTriple s → noTriple (reSubAux matchHT [' '] fuel s) := by
  intro fuel
  induction fuel with
  | zero =>
    intro s hl _ i
    rw [List.length_eq_zero.mp (Nat.le_zero.mp hl), reSubAux_nil, List.drop_nil]
    decide
  | succ fuel ih =>
    intro s hl ht
    cases s with
    | nil =>
      intro i
      rw [reSubAux_nil, List.drop_nil]
      decide
    | cons c rest =>
      rw [List.length_cons] at hl
      by_cases hh : isHT c
      · have hm : matchHT (c :: rest) = some (1 + countLeadHT rest) := by
          rw [matchHT, if_pos hh]
        have hd : 1 + countLeadHT rest - 1 = countLeadHT rest := by omega
        have hlen : (rest.drop (countLeadHT rest)).length ≤ fuel := by
          rw [List.length_drop]
          omega
        have hshift : noTriple (rest.drop (countLeadHT rest)) := by
          intro i
          have hx := ht (countLeadHT rest + i + 1)
          rw [List.drop_succ_cons] at hx
          rwa [List.drop_drop]
        intro i
        simp only [reSubAux_cons, hm, hd, List.cons_append, List.nil_append]
        cases i with
        | zero =>
          rw [List.drop_zero, nlWS_cons,
            if_pos (by decide : isSpaceChar ' ' = true),
            reSubHT_nlWS fuel _ hlen, nlWS_drop_HT]
          have h0 := ht 0
          rw [List.drop_zero, nlWS_cons] at h0
          rcases isHT_cases hh with hc | hc <;> subst hc <;>
            simp [isSpaceChar] at h0 ⊢ <;> omega
        | succ i =>
          rw [List.drop_succ_cons]
          exact ih _ hlen hshift i
      · have hm : matchHT (c :: rest) = none := by
          rw [matchHT, if_neg hh]
        have hrest : noTriple rest := by
          intro i
          have hx := ht (i + 1)
          rwa [List.drop_succ_cons] at hx
        intro i
        simp only [reSubAux_cons, hm]
        cases i with
        | zero =>
          rw [List.drop_zero, nlWS_cons, reSubHT_nlWS fuel rest (by omega)]
          have h0 := ht 0
          rw [List.drop_zero, nlWS_cons] at h0
          exact h0
        | succ i =>
          rw [List.drop_succ_cons]
          exact ih rest (by omega) hrest i

theorem reSubHT_leadHT_zero : ∀ (fuel : Nat) (s : List Char),
    countLeadHT s = 0 → countLeadHT (reSubAux matchHT [' '] fuel s) = 0 := by
  intro fuel s h0
  cases s with
  | nil => rw [reSubAux_nil]; rfl
  | cons c rest =>
    have hh : ¬ isHT c = true := by
      intro hh
      rw [countLeadHT, if_pos hh] at h0
      omega
    cases fuel with
    | zero => exact h0
    | succ fuel =>
      have hm : matchHT (c :: rest) = none := by
        rw [matchHT, if_neg hh]
      simp only [reSubAux_cons, hm]
      rw [countLeadHT, if_neg hh]

theorem reSubHT_htSingles : ∀ (fuel : Nat) (s : List Char), s.length ≤ fuel →
    htSingles (reSubAux matchHT [' '] fuel s) := by
  intro fuel
  induction fuel with
  | zero =>
    intro s hl i
    rw [List.length_eq_zero.mp (Nat.le_zero.mp hl), reSubAux_nil, List.drop_nil]
    exact ⟨by decide, by simp⟩
  | succ fuel ih =>
    intro s hl
    cases s with
    | nil =>
      intro i
      rw [reSubAux_nil, List.drop_nil]
      exact ⟨by decide, by simp⟩
    | cons c rest =>
      rw [List.length_cons] at hl
      by_cases hh : isHT c
      · have hm : matchHT (c :: rest) = some (1 + countLeadHT rest) := by
          rw [matchHT, if_pos hh]
        have hd : 1 + countLeadHT rest - 1 = countLeadHT rest := by omega
        have hlen : (rest.drop (countLeadHT rest)).length ≤ fuel := by
          rw [List.length_drop]
          omega
        have hz0 : countLeadHT
            (reSubAux matchHT [' '] fuel (rest.drop (countLeadHT rest))) = 0 :=
          reSubHT_leadHT_zero fuel _ (countLeadHT_drop rest)
        intro i
        simp only [reSubAux_cons, hm, hd, List.cons_append, List.nil_append]
        cases i with
        | zero =>
          rw [List.drop_zero]
          constructor
          · rw [countLeadHT, if_pos (by decide : isHT ' ' = true), hz0]
          · simp
        | succ i =>
          rw [List.drop_succ_cons]
          exact ih _ hlen i
      · have hm : matchHT (c :: rest) = none := by
          rw [matchHT, if_neg hh]
        intro i
        simp only [reSubAux_cons, hm]
        cases i with
        | zero =>
          rw [List.drop_zero]
          constructor
          · rw [countLeadHT, if_neg hh]
            omega
          · simp only [List.head?_cons]
            intro heq
            rw [Option.some_inj.mp heq] at hh
            exact hh (by decide)
        | succ i =>
          rw [List.drop_succ_cons]
          exact ih rest (by omega) i

theorem reSubHT_id : ∀ (fuel : Nat) (s : List Char), s.length ≤ fuel →
    htSingles s → reSubAux matchHT [' '] fuel s = s := by
  intro fuel
  induction fuel with
  | zero =>
    intro s hl _
    rw [List.length_eq_zero.mp (Nat.le_zero.mp hl), reSubAux_nil]
  | succ fuel ih =>
    intro s hl hs
    cases s with
    | nil => rw [reSubAux_nil]
    | cons c rest =>
      rw [List.length_cons] at hl
      have h0 := hs 0
      rw [List.drop_zero] at h0
      have hrest : htSingles rest := by
        intro i
        have hx := hs (i + 1)
        rwa [List.drop_succ_cons] at hx
      by_cases hh : isHT c
      · have hsp : c = ' ' := by
          rcases isHT_cases hh with hc | hc
          · exact hc
          · exfalso
            subst hc
            exact h0.2 (by simp)
        have hk0 : countLeadHT rest = 0 := by
          have := h0.1
          rw [countLeadHT, if_pos hh] at this
          omega
        have hm : matchHT (c :: rest) = some 1 := by
          rw [matchHT, if_pos hh, hk0]
        simp only [reSubAux_cons, hm]
        rw [show (1 : Nat) - 1 = 0 from rfl, List.drop_zero,
          ih rest (by omega) hrest, List.cons_append, List.nil_append, hsp]
      · have hm : matchHT (c :: rest) = none := by
          rw [matchHT, if_neg hh]
        simp only [reSubAux_cons, hm]
        rw [ih rest (by omega) hrest]

/-- C3: the whitespace normalization (blank-line collapse followed by
horizontal-whitespace collapse, exactly as composed in clean_text) is
idempotent on every input. -/
theorem C3_normalize_idempotent (x : List Char) :
    normalizeWS (normalizeWS x) = normalizeWS x := by
  have hTy : noTriple (subBlank x) :=
    reSubA_noTriple x.length x (le_refl _)
  have hTz : noTriple (subHT (subBlank x)) :=
    reSubHT_noTriple (subBlank x).length (subBlank x) (le_refl _) hTy
  have hHz : htSingles (subHT (subBlank x)) :=
    reSubHT_htSingles (subBlank x).length (subBlank x) (le_refl _)
  show subHT (subBlank (subHT (subBlank x))) = subHT (subBlank x)
  have hb : subBlank (subHT (subBlank x)) = subHT (subBlank x) :=
    reSubA_id (subHT (subBlank x)).length (subHT (subBlank x)) (le_refl _) hTz
  rw [hb]
  exact reSubHT_id (subHT (subBlank x)).length (subHT (subBlank x))
    (le_refl _) hHz

/-! ## Claim C6: shape of the clean content -/

theorem hasNNN_false : ∀ (s : List Char), noTriple s → hasNNN s = false
  | [], _ => rfl
  | [_], _ => rfl
  | [_, _], _ => rfl
  | c :: d :: e :: t, h => by
    rw [hasNNN]
    have hshift : noTriple (d :: e :: t) := by
      intro i
      have hx := h (i + 1)
      rwa [List.drop_succ_cons] at hx
    by_cases hc : (c = '\n' && d = '\n' && e = '\n') = true
    · exfalso
      simp only [Bool.and_eq_true, decide_eq_true_eq] at hc
      obtain ⟨⟨h1, h2⟩, h3⟩ := hc
      subst h1 h2 h3
      have h0 := h 0
      rw [List.drop_zero, nlWS_cons, nlWS_cons, nlWS_cons] at h0
      simp [isSpaceChar] at h0
      omega
    · rw [if_neg hc]
      exact hasNNN_false (d :: e :: t) hshift

theorem hasHT2_false : ∀ (s : List Char),
    (∀ i, countLeadHT (s.drop i) ≤ 1) → hasHT2 s = false
  | [], _ => rfl
  | [_], _ => rfl
  | c :: d :: t, h => by
    rw [hasHT2]
    have hshift : ∀ i, countLeadHT ((d :: t).drop i) ≤ 1 := by
      intro i
      have hx := h (i + 1)
      rwa [List.drop_succ_cons] at hx
    by_cases hc : (isHT c && isHT d) = true
    · exfalso
      simp only [Bool.and_eq_true] at hc
      have h0 := h 0
      rw [List.drop_zero, countLeadHT, if_pos hc.1, countLeadHT,
        if_pos hc.2] at h0
      omega
    · rw [if_neg hc]
      exact hasHT2_false (d :: t) hshift

theorem head?_dropWhile_not {p : Char → Bool} :
    ∀ (l : List Char) (c : Char), (l.dropWhile p).head? = some c →
      p c = false := by
  intro l
  induction l with
  | nil => intro c h; cases h
  | cons a t ih =>
    intro c h
    rw [List.dropWhile_cons] at h
    by_cases ha : p a
    · rw [if_pos ha] at h
      exact ih c h
    · rw [if_neg ha] at h
      rw [List.head?_cons, Option.some_inj] at h
      subst h
      simpa using ha

theorem getLast?_dropWhile {p : Char → Bool} :
    ∀ (l : List Char), l.dropWhile p ≠ [] →
      (l.dropWhile p).getLast? = l.getLast? := by
  intro l
  induction l with
  | nil => intro h; simp at h
  | cons a t ih =>
    intro h
    rw [List.dropWhile_cons]
    by_cases ha : p a
    · rw [if_pos ha]
      rw [List.dropWhile_cons, if_pos ha] at h
      have ht : t ≠ [] := by
        intro he
        subst he
        simp at h
      rw [ih h]
      cases t with
      | nil => exact absurd rfl ht
      | cons b u => rw [List.getLast?_cons_cons]
    · rw [if_neg ha]

theorem pyStrip_head {s : List Char} {c : Char}
    (h : (pyStrip s).head? = some c) : isSpaceChar c = false := by
  rw [pyStrip, List.head?_reverse] at h
  have hne : (s.dropWhile isSpaceChar).reverse.dropWhile isSpaceChar ≠ [] := by
    intro he
    rw [he] at h
    cases h
  rw [getLast?_dropWhile _ hne, List.getLast?_reverse] at h
  exact head?_dropWhile_not _ _ h

theorem pyStrip_getLast {s : List Char} {c : Char}
    (h : (pyStrip s).getLast? = some c) : isSpaceChar c = false := by
  rw [pyStrip, List.getLast?_reverse] at h
  exact head?_dropWhile_not _ _ h

theorem isSpaceChar_of_isHT {c : Char} (h : isHT c = true) :
    isSpaceChar c = true := by
  rcases isHT_cases h with rfl | rfl <;> decide

theorem getLast?_ne_nil {l : List Char} {c : Char}
    (h : l.getLast? = some c) : l ≠ [] := by
  intro he
  subst he
  cases h

theorem mem_of_getLast?_eq {l : List Char} {c : Char}
    (h : l.getLast? = some c) : c ∈ l := by
  have hne : l ≠ [] := getLast?_ne_nil h
  rw [List.getLast?_eq_getLast_of_ne_nil hne, Option.some_inj] at h
  exact h ▸ List.getLast_mem hne

theorem getLast?_drop_of_ne : ∀ (l : List Char) (k : Nat), l.drop k ≠ [] →
    (l.drop k).getLast? = l.getLast? := by
  intro l
  induction l with
  | nil => intro k h; simp at h
  | cons a t ih =>
    intro k h
    cases k with
    | zero => rfl
    | succ k =>
      rw [List.drop_succ_cons] at h ⊢
      rw [ih k h]
      cases t with
      | nil => simp at h
      | cons b u => rw [List.getLast?_cons_cons]

theorem all_isHT_of_drop_nil : ∀ (l : List Char),
    l.drop (countLeadHT l) = [] → ∀ x ∈ l, isHT x = true := by
  intro l
  induction l with
  | nil => intro _ x hx; cases hx
  | cons a t ih =>
    intro h x hx
    rw [countLeadHT] at h
    by_cases ha : isHT a
    · rw [if_pos ha] at h
      have e : 1 + countLeadHT t = countLeadHT t + 1 := by omega
      rw [e, List.drop_succ_cons] at h
      rcases List.mem_cons.mp hx with rfl | hx'
      · exact ha
      · exact ih h x hx'
    · rw [if_neg ha, List.drop_zero] at h
      cases h

theorem reSubA_head {fuel : Nat} {s : List Char} {c : Char}
    (hh : s.head? = some c) (hns : isSpaceChar c = false) :
    (reSubAux matchA ['\n', '\n'] fuel s).head? = some c := by
  cases s with
  | nil => cases hh
  | cons a rest =>
    rw [List.head?_cons, Option.some_inj] at hh
    subst hh
    cases fuel with
    | zero => rfl
    | succ fuel =>
      have hm : matchA (a :: rest) = none := by
        rw [matchA, if_neg (by
          intro he
          rw [he] at hns
          simp [isSpaceChar] at hns)]
      simp only [reSubAux_cons, hm, List.head?_cons]

theorem reSubHT_head {fuel : Nat} {s : List Char} {c : Char}
    (hh : s.head? = some c) (hns : isSpaceChar c = false) :
    (reSubAux matchHT [' '] fuel s).head? = some c := by
  cases s with
  | nil => cases hh
  | cons a rest =>
    rw [List.head?_cons, Option.some_inj] at hh
    subst hh
    cases fuel with
    | zero => rfl
    | succ fuel =>
      have hm : matchHT (a :: rest) = none := by
        rw [matchHT, if_neg (by
          intro he
          rw [isSpaceChar_of_isHT he] at hns
          cases hns)]
      simp only [reSubAux_cons, hm, List.head?_cons]

theorem reSubA_getLast : ∀ (fuel : Nat) (s : List Char) (c : Char),
    s.length ≤ fuel → s.getLast? = some c → isSpaceChar c = false →
    (reSubAux matchA ['\n', '\n'] fuel s).getLast? = some c := by
  intro fuel
  induction fuel with
  | zero =>
    intro s c hl hg _
    rw [List.length_eq_zero.mp (Nat.le_zero.mp hl)] at hg
    cases hg
  | succ fuel ih =>
    intro s c hl hg hns
    cases s with
    | nil => cases hg
    | cons a rest =>
      rw [List.length_cons] at hl
      cases hm : matchA (a :: rest) with
      | none =>
        simp only [reSubAux_cons, hm]
        cases rest with
        | nil =>
          rw [reSubAux_nil]
          exact hg
        | cons b u =>
          have hg' : (b :: u).getLast? = some c := by
            rw [← List.getLast?_cons_cons (a := a)]
            exact hg
          have hz := ih (b :: u) c (by
            rw [List.length_cons] at hl ⊢
            omega) hg' hns
          have hzne := getLast?_ne_nil hz
          cases hzz : reSubAux matchA ['\n', '\n'] fuel (b :: u) with
          | nil => exact absurd hzz hzne
          | cons z zs =>
            rw [hzz] at hz
            rw [List.getLast?_cons_cons]
            exact hz
      | some n =>
        obtain ⟨hc, i, hli, hn, hge⟩ := matchA_some_data hm
        subst hc
        have hdrop := lastNL_drop rest i hli
        have hd : rest.drop (n - 1) = rest.drop (i + 1) := by
          congr 1
          omega
        simp only [reSubAux_cons, hm, hd]
        have hwne : rest.drop (i + 1) ≠ [] := by
          intro he
          have h1 : rest.drop i = ['\n'] := by rw [hdrop.1, he]
          have hrne : rest ≠ [] := by
            intro hre
            subst hre
            simp at h1
          have h2 : rest.getLast? = some '\n' := by
            rw [← getLast?_drop_of_ne rest i (by rw [h1]; simp), h1]
            rfl
          have h3 : ('\n' :: rest).getLast? = some '\n' := by
            cases rest with
            | nil => exact absurd rfl hrne
            | cons b u =>
              rw [List.getLast?_cons_cons]
              exact h2
          have h4 : some c = some '\n' := by rw [← hg, h3]
          rw [Option.some_inj] at h4
          subst h4
          simp [isSpaceChar] at hns
        have hrne : rest ≠ [] := by
          intro hre
          subst hre
          simp at hwne
        have hgw : (rest.drop (i + 1)).getLast? = some c := by
          rw [getLast?_drop_of_ne rest (i + 1) hwne]
          cases rest with
          | nil => exact absurd rfl hrne
          | cons b u =>
            rw [← List.getLast?_cons_cons (a := '\n')]
            exact hg
        have hlen : (rest.drop (i + 1)).length ≤ fuel := by
          rw [List.length_drop]
          omega
        have hz := ih (rest.drop (i + 1)) c hlen hgw hns
        rw [List.getLast?_append_of_ne_nil _ (getLast?_ne_nil hz)]
        exact hz

theorem reSubHT_getLast : ∀ (fuel : Nat) (s : List Char) (c : Char),
    s.length ≤ fuel → s.getLast? = some c → isSpaceChar c = false →
    (reSubAux matchHT [' '] fuel s).getLast? = some c := by
  intro fuel
  induction fuel with
  | zero =>
    intro s c hl hg _
    rw [List.length_eq_zero.mp (Nat.le_zero.mp hl)] at hg
    cases hg
  | succ fuel ih =>
    intro s c hl hg hns
    cases s with
    | nil => cases hg
    | cons a rest =>
      rw [List.length_cons] at hl
      by_cases hh : isHT a
      · have hm : matchHT (a :: rest) = some (1 + countLeadHT rest) := by
          rw [matchHT, if_pos hh]
        have hd : 1 + countLeadHT rest - 1 = countLeadHT rest := by omega
        simp only [reSubAux_cons, hm, hd]
        have hwne : rest.drop (countLeadHT rest) ≠ [] := by
          intro he
          have hall := all_isHT_of_drop_nil rest he
          cases rest with
          | nil =>
            have : c = a := by
              have := hg
              rw [List.getLast?_singleton, Option.some_inj] at this
              exact this.symm
            subst this
            rw [isSpaceChar_of_isHT hh] at hns
            cases hns
          | cons b u =>
            have hg' : (b :: u).getLast? = some c := by
              rw [← List.getLast?_cons_cons (a := a)]
              exact hg
            have hcmem : c ∈ b :: u := mem_of_getLast?_eq hg'
            rw [isSpaceChar_of_isHT (hall c hcmem)] at hns
            cases hns
        have hrne : rest ≠ [] := by
          intro hre
          subst hre
          simp at hwne
        have hgw : (rest.drop (countLeadHT rest)).getLast? = some c := by
          rw [getLast?_drop_of_ne rest (countLeadHT rest) hwne]
          cases rest with
          | nil => exact absurd rfl hrne
          | cons b u =>
            rw [← List.getLast?_cons_cons (a := a)]
            exact hg
        have hlen : (rest.drop (countLeadHT rest)).length ≤ fuel := by
          rw [List.length_drop]
          omega
        have hz := ih (rest.drop (countLeadHT rest)) c hlen hgw hns
        rw [List.getLast?_append_of_ne_nil _ (getLast?_ne_nil hz)]
        exact hz
      · have hm : matchHT (a :: rest) = none := by
          rw [matchHT, if_neg hh]
        simp only [reSubAux_cons, hm]
        cases rest with
        | nil =>
          rw [reSubAux_nil]
          exact hg
        | cons b u =>
          have hg' : (b :: u).getLast? = some c := by
            rw [← List.getLast?_cons_cons (a := a)]
            exact hg
          have hz := ih (b :: u) c (by
            rw [List.length_cons] at hl ⊢
            omega) hg' hns
          have hzne := getLast?_ne_nil hz
          cases hzz : reSubAux matchHT [' '] fuel (b :: u) with
          | nil => exact absurd hzz hzne
          | cons z zs =>
            rw [hzz] at hz
            rw [List.getLast?_cons_cons]
            exact hz

theorem normalizeWS_shape (s0 : List Char)
    (hhead : ∀ c, s0.head? = some c → isSpaceChar c = false)
    (hlast : ∀ c, s0.getLast? = some c → isSpaceChar c = false) :
    hasNNN (normalizeWS s0) = false ∧ hasHT2 (normalizeWS s0) = false ∧
    noLeadWS (normalizeWS s0) = true ∧ noTrailWS (normalizeWS s0) = true := by
  have hTy : noTriple (subBlank s0) := reSubA_noTriple s0.length s0 (le_refl _)
  have hTz : noTriple (subHT (subBlank s0)) :=
    reSubHT_noTriple (subBlank s0).length (subBlank s0) (le_refl _) hTy
  have hHz : htSingles (subHT (subBlank s0)) :=
    reSubHT_htSingles (subBlank s0).length (subBlank s0) (le_refl _)
  refine ⟨hasNNN_false _ hTz, hasHT2_false _ (fun i => (hHz i).1), ?_, ?_⟩
  · cases s0 with
    | nil => rfl
    | cons a rest =>
      have hans : isSpaceChar a = false := hhead a rfl
      have h1 : (subBlank (a :: rest)).head? = some a :=
        reSubA_head rfl hans
      have h2 : (normalizeWS (a :: rest)).head? = some a :=
        reSubHT_head h1 hans
      rw [noLeadWS]
      simp only [h2, hans]
      rfl
  · cases s0 with
    | nil => rfl
    | cons a rest =>
      have hgl := List.getLast?_eq_getLast_of_ne_nil
        (List.cons_ne_nil a rest)
      have hans : isSpaceChar ((a :: rest).getLast (List.cons_ne_nil a rest))
          = false := hlast _ hgl
      have h1 : (subBlank (a :: rest)).getLast?
          = some ((a :: rest).getLast (List.cons_ne_nil a rest)) :=
        reSubA_getLast (a :: rest).length (a :: rest) _
          (le_refl _) hgl hans
      have h2 : (normalizeWS (a :: rest)).getLast?
          = some ((a :: rest).getLast (List.cons_ne_nil a rest)) :=
        reSubHT_getLast (subBlank (a :: rest)).length
          (subBlank (a :: rest)) _ (le_refl _) h1 hans
      rw [noTrailWS]
      simp only [h2, hans]
      rfl

/-- C6: for every input, the clean content produced by clean_text contains
no run of three or more newlines, no run of two or more horizontal
whitespace characters, and no leading or trailing whitespace. -/
theorem C6_clean_shape (text : List Char) :
    hasNNN (clean_text text) = false ∧
    hasHT2 (clean_text text) = false ∧
    noLeadWS (clean_text text) = true ∧
    noTrailWS (clean_text text) = true := by
  exact normalizeWS_shape (pyStrip (pySlice text (findStart text) (findEnd text)))
    (fun c hc => pyStrip_head hc)
    (fun c hc => pyStrip_getLast hc)
